import Mathlib

/-!
Verification of the ZionCodingAgent control core against its specification.

This file gives a shallow embedding, in Lean 4, of the parts of the repository
that the specification's testable claims are about:

* `tools/filesystem_tools.py` — the `write_file`, `edit_file` and `patch_file`
  actions (content validation, backup-before-overwrite, unique-target editing,
  line-oriented patching);
* `core/git_version_manager.py` — the git-backed Version Store
  (`backup_file`, `undo_task` on the current task);
* `core/orchestrator.py` — the Response Interpreter
  (`_preprocess_response`, `parse_response`), the retry loop of `step`,
  the `tool_history` ring and the `SAFE_TOOLS` auto-approval set.

Strings are modelled as `List Char`; the file system and git snapshots as
association lists from path to content; the Python `str` operations used by
the code (`count`, `replace`, `strip`, `split`, `lower`, containment) are
translated directly.  Fallible operations return `Option`.  All definitions
are executable so that every theorem can be checked on concrete inputs.
-/

/-- Strings from the source are modelled as lists of characters. -/
abbrev Str := List Char

/-- Coerce a Lean string literal to the `List Char` model. -/
def lc (s : String) : Str := s.data

/-- `hasPre pat l` : `pat` is an initial segment of `l` (Python `startswith`). -/
def hasPre : Str → Str → Bool
  | [], _ => true
  | _ :: _, [] => false
  | p :: ps, c :: cs => p == c && hasPre ps cs

/-- Python's `pat in s` substring test. -/
def containsSub (pat : Str) : Str → Bool
  | [] => hasPre pat []
  | c :: cs => hasPre pat (c :: cs) || containsSub pat cs

/-- Fuelled scanner behind `countOccs` (structural recursion on the fuel so
that the kernel can evaluate it; the fuel is set to the string length). -/
def countOccsF (pat : Str) : Nat → Str → Nat
  | _, [] => 0
  | 0, _ :: _ => 0
  | fuel + 1, c :: cs =>
    if hasPre pat (c :: cs) then 1 + countOccsF pat fuel (List.drop (pat.length - 1) cs)
    else countOccsF pat fuel cs

/-- Python's `s.count(pat)`: number of non-overlapping occurrences of `pat`,
scanning left to right (greedy, the count used by `edit_file`). -/
def countOccs (pat l : Str) : Nat := countOccsF pat l.length l

/-- Fuelled scanner behind `replaceAll`. -/
def replaceAllF (pat rep : Str) : Nat → Str → Str
  | _, [] => []
  | 0, l => l
  | fuel + 1, c :: cs =>
    if hasPre pat (c :: cs) then rep ++ replaceAllF pat rep fuel (List.drop (pat.length - 1) cs)
    else c :: replaceAllF pat rep fuel cs

/-- Python's `s.replace(pat, rep)`: replace every non-overlapping occurrence,
left to right. -/
def replaceAll (pat rep l : Str) : Str := replaceAllF pat rep l.length l

/-- The fuel argument of `countOccsF` is irrelevant once it covers the
string length. -/
theorem countOccsF_irrel (pat : Str) :
    ∀ f1 f2 l, l.length ≤ f1 → l.length ≤ f2 →
      countOccsF pat f1 l = countOccsF pat f2 l := by
  intro f1
  induction f1 with
  | zero =>
    intro f2 l h1 _
    have : l = [] := List.length_eq_zero.mp (Nat.le_zero.mp h1)
    subst this
    cases f2 <;> rfl
  | succ f ih =>
    intro f2 l h1 h2
    cases l with
    | nil => cases f2 <;> rfl
    | cons c cs =>
      cases f2 with
      | zero => simp at h2
      | succ g =>
        simp only [countOccsF]
        have hcs : cs.length ≤ f := by simpa using h1
        have hcs2 : cs.length ≤ g := by simpa using h2
        have hdrop : (List.drop (pat.length - 1) cs).length ≤ cs.length := by
          simp only [List.length_drop]
          omega
        by_cases hp : hasPre pat (c :: cs) = true
        · rw [if_pos hp, if_pos hp, ih g _ (le_trans hdrop hcs) (le_trans hdrop hcs2)]
        · rw [if_neg hp, if_neg hp, ih g _ hcs hcs2]

/-- Unfolding equation of `countOccs` on a cons cell. -/
theorem countOccs_cons (pat : Str) (c : Char) (cs : Str) :
    countOccs pat (c :: cs) =
      if hasPre pat (c :: cs) then 1 + countOccs pat (List.drop (pat.length - 1) cs)
      else countOccs pat cs := by
  have hdrop : (List.drop (pat.length - 1) cs).length ≤ cs.length := by
    simp only [List.length_drop]
    omega
  simp only [countOccs, List.length_cons, countOccsF]
  by_cases hp : hasPre pat (c :: cs) = true
  · rw [if_pos hp, if_pos hp,
      countOccsF_irrel pat cs.length (List.drop (pat.length - 1) cs).length _ hdrop le_rfl]
  · rw [if_neg hp, if_neg hp,
      countOccsF_irrel pat cs.length cs.length _ le_rfl le_rfl]

/-- Python `str.isspace` characters relevant to `strip` and the regex `\s`. -/
def isPyWs (c : Char) : Bool :=
  c == ' ' || c == '\t' || c == '\n' || c == '\r' || c == '\x0b' || c == '\x0c'

/-- Python's `s.strip()`. -/
def pyStrip (l : Str) : Str :=
  ((l.dropWhile isPyWs).reverse.dropWhile isPyWs).reverse

/-- Python's `s.split('\n')`. -/
def splitNl : Str → List Str
  | [] => [[]]
  | '\n' :: rest => [] :: splitNl rest
  | c :: rest =>
    match splitNl rest with
    | [] => [[c]]
    | x :: xs => (c :: x) :: xs

/-- Python's `s.lower()` restricted to ASCII, as used for timeout detection. -/
def pyLower (l : Str) : Str := l.map Char.toLower

/-- Drop leading regex-`\s` whitespace. -/
def dropPyWs (l : Str) : Str := l.dropWhile isPyWs

/- ------------------------------------------------------------------ -/
/- The CallRecord ring (`AgentOrchestrator.approve_tool`, orchestrator.py
   lines 335-339): append the call id, then evict the oldest entry when the
   length exceeds 10. -/

/-- `tool_history.append(call_id); if len > 10: pop(0)` from `approve_tool`. -/
def pushCallRecord (h : List Str) (callId : Str) : List Str :=
  let h1 := h ++ [callId]
  if h1.length > 10 then h1.tail else h1

/-- The orchestrator operations that touch `tool_history`: `approve_tool`
appends a record; `reset` and the start of `run` clear the list. -/
inductive HistOp where
  | approve (callId : Str)
  | reset
deriving DecidableEq

/-- Effect of an orchestrator operation on `tool_history`. -/
def applyHistOp : HistOp → List Str → List Str
  | .approve c, h => pushCallRecord h c
  | .reset, _ => []

/- ------------------------------------------------------------------ -/
/- The tool registry and the auto-approval safe set
   (orchestrator.py lines 44-60 and the approval branch of `run`). -/

/-- Keys of `self.tools` in registration order (orchestrator.py lines 44-54). -/
def toolRegistry : List Str :=
  [lc "read_file", lc "write_file", lc "edit_file", lc "patch_file",
   lc "search_files", lc "list_dir", lc "run_command", lc "focus_file",
   lc "unfocus_file"]

/-- `self.SAFE_TOOLS` exactly as written on orchestrator.py line 60. -/
def SAFE_TOOLS : List Str :=
  [lc "read_file", lc "list_dir", lc "search_files", lc "focus_file",
   lc "unfocus_file", lc "write_file", lc "edit_file", lc "patch_file",
   lc "run_command"]

/-- The run loop's approval branch: a pending invocation requires a manual
operator decision exactly when its tool name is not in `SAFE_TOOLS`
(`if tool_name in self.SAFE_TOOLS: ... approve_tool()` else prompt). -/
def needsManualApproval (toolName : Str) : Bool :=
  !(SAFE_TOOLS.contains toolName)

/- ------------------------------------------------------------------ -/
/- Claim theorems for the ring and the safe set. -/

/-- C9: after any orchestrator operation on a `tool_history` of at most 10
entries the ring still has at most 10 entries; an 11th append evicts the
oldest entry (FIFO) and keeps exactly the 10 most recent calls. -/
theorem callRecord_ring_bounded (op : HistOp) (h : List Str)
    (hlen : h.length ≤ 10) :
    (applyHistOp op h).length ≤ 10 ∧
    (∀ c, h.length = 10 → applyHistOp (.approve c) h = h.tail ++ [c]) ∧
    (∀ c, h.length < 10 → applyHistOp (.approve c) h = h ++ [c]) := by
  refine ⟨?_, ?_, ?_⟩
  · cases op with
    | approve c =>
      simp only [applyHistOp, pushCallRecord]
      split
      · next hgt =>
        simp only [List.length_tail, List.length_append, List.length_cons,
          List.length_nil] at *
        omega
      · next hle =>
        simp only [List.length_append, List.length_cons, List.length_nil] at *
        omega
    | reset => simp [applyHistOp]
  · intro c h10
    simp only [applyHistOp, pushCallRecord]
    have : (h ++ [c]).length > 10 := by
      simp only [List.length_append, List.length_cons, List.length_nil]
      omega
    simp only [this, if_pos]
    cases h with
    | nil => simp at h10
    | cons x xs => simp
  · intro c hlt
    simp only [applyHistOp, pushCallRecord]
    have hc : ¬ (h ++ [c]).length > 10 := by
      simp only [List.length_append, List.length_cons, List.length_nil]
      omega
    rw [if_neg hc]

/-- Witness for `callRecord_ring_bounded` at a concrete 10-entry history. -/
theorem callRecord_ring_bounded_witness :
    ([lc "a", lc "b", lc "c", lc "d", lc "e", lc "f", lc "g", lc "h", lc "i",
      lc "j"] : List Str).length ≤ 10 ∧
    applyHistOp (.approve (lc "k"))
      [lc "a", lc "b", lc "c", lc "d", lc "e", lc "f", lc "g", lc "h", lc "i",
       lc "j"] =
      [lc "b", lc "c", lc "d", lc "e", lc "f", lc "g", lc "h", lc "i", lc "j",
       lc "k"] := by
  refine ⟨by decide, ?_⟩
  have h := callRecord_ring_bounded (.approve (lc "k"))
    [lc "a", lc "b", lc "c", lc "d", lc "e", lc "f", lc "g", lc "h", lc "i",
     lc "j"] (by decide)
  have h2 := h.2.1 (lc "k") (by decide)
  simpa using h2

/-- C10: the auto-approval safe set equals the full tool registry, so every
registered tool name is auto-approved by the run loop, and the manual
approval prompt is reachable only for unregistered tool names. -/
theorem safe_set_equals_registry (t : Str) :
    (t ∈ toolRegistry ↔ t ∈ SAFE_TOOLS) ∧
    (t ∈ toolRegistry → needsManualApproval t = false) ∧
    (needsManualApproval t = true → t ∉ toolRegistry) := by
  have hiff : t ∈ toolRegistry ↔ t ∈ SAFE_TOOLS := by
    simp only [toolRegistry, SAFE_TOOLS, List.mem_cons, List.mem_singleton,
      List.not_mem_nil, or_false]
    tauto
  refine ⟨hiff, ?_, ?_⟩
  · intro hreg
    have hsafe : t ∈ SAFE_TOOLS := hiff.mp hreg
    simp only [needsManualApproval, Bool.not_eq_false']
    exact List.elem_eq_true_of_mem hsafe
  · intro hman hreg
    have hsafe : t ∈ SAFE_TOOLS := hiff.mp hreg
    have hc : SAFE_TOOLS.contains t = true := List.elem_eq_true_of_mem hsafe
    rw [needsManualApproval, hc] at hman
    simp at hman

/-- Witness for `safe_set_equals_registry` at the registered name
`read_file`: it is in both sets and is auto-approved. -/
theorem safe_set_equals_registry_witness :
    lc "read_file" ∈ toolRegistry ∧ needsManualApproval (lc "read_file") = false := by
  have h := safe_set_equals_registry (lc "read_file")
  have hreg : lc "read_file" ∈ toolRegistry := by decide
  exact ⟨hreg, h.2.1 hreg⟩

/- ------------------------------------------------------------------ -/
/- File system and Version Store state.

   The file system is an association list from absolute path to file
   content.  `VersionManager.backup_file` (version_manager.py lines 66-96)
   copies the file into the backup directory and appends a ledger entry;
   the copied snapshot is modelled as the `content` field of the entry. -/

/-- Association-list file system: `fsGet` is `open(...).read()` /
`os.path.exists`, `fsSet` is `open(path, "w").write(content)`. -/
abbrev FS := List (Str × Str)

/-- Look up a path (first binding wins; paths are kept unique by `fsSet`). -/
def fsGet : FS → Str → Option Str
  | [], _ => none
  | (q, c) :: rest, p => if q = p then some c else fsGet rest p

/-- Write a path, replacing an existing binding. -/
def fsSet : FS → Str → Str → FS
  | [], p, c => [(p, c)]
  | (q, d) :: rest, p, c =>
    if q = p then (q, c) :: rest else (q, d) :: fsSet rest p c

/-- One ledger record of the flat-file Version Store: the spec's
BackupEntry.  `content` is the snapshot the backup copy preserved. -/
structure BackupEntry where
  file_path : Str
  content : Str
  action : Str
deriving DecidableEq

/-- State of the flat-file Version Store: the append-only ledger. -/
structure VMState where
  history : List BackupEntry
deriving DecidableEq

/-- `VersionManager.backup_file(file_path, action)`: if the file exists,
snapshot its current content and append a ledger entry; otherwise no-op. -/
def vmBackupFile (fs : FS) (vm : VMState) (p : Str) (action : Str) : VMState :=
  match fsGet fs p with
  | none => vm
  | some c => ⟨vm.history ++ [⟨p, c, action⟩]⟩

/- ------------------------------------------------------------------ -/
/- WriteFileTool.execute (filesystem_tools.py lines 57-116), with the
   approval manager absent (`enable_approvals` defaults to False). -/

/-- One quality-guard line test: comment syntax or placeholder keywords
(`filesystem_tools.py` lines 89-96). -/
def isPlaceholderLine (line : Str) : Bool :=
  hasPre (lc "<!--") line || hasPre (lc "//") line || hasPre (lc "#") line ||
  containsSub (lc "placeholder") (pyLower line) ||
  containsSub (lc "updated") (pyLower line) ||
  containsSub (lc "modified") (pyLower line)

/-- The stripped non-blank lines of the content
(`[l.strip() for l in lines if l.strip()]`). -/
def nonEmptyLines (content : Str) : List Str :=
  ((splitNl (pyStrip content)).map pyStrip).filter (fun l => l ≠ [])

/-- The quality guard of `write_file`: content under 3 non-blank lines that
is entirely comment/placeholder text is rejected. -/
def qualityRejected (content : Str) : Bool :=
  (nonEmptyLines content).length < 3 &&
  (nonEmptyLines content).all isPlaceholderLine

/-- Result of one tool execution: the returned message plus the new file
system and Version Store states. -/
structure ToolOut where
  msg : Str
  fs : FS
  vm : VMState
deriving DecidableEq

/-- A result string the loop recognises as a failure
(`result.startswith("Error:") or result.startswith("VIOLATION:")`). -/
def isMarkerError (msg : Str) : Bool :=
  hasPre (lc "Error:") msg || hasPre (lc "VIOLATION:") msg

/-- `f"Successfully {action} {file_path}"`. -/
def successMsg (action path : Str) : Str :=
  lc "Successfully " ++ action ++ lc " " ++ path

/-- `WriteFileTool.execute(file_path, content)` translated from
filesystem_tools.py lines 57-116 (OS calls are assumed to succeed). -/
def writeFileExec (fs : FS) (vm : VMState) (path content : Str) : ToolOut :=
  if content = [] then ⟨lc "Error: Content cannot be empty.", fs, vm⟩
  else
    let old_content := fsGet fs path
    if qualityRejected content then
      ⟨lc "VIOLATION: Content appears to be a placeholder comment, not real code.", fs, vm⟩
    else
      let vm1 := if (fsGet fs path).isSome then vmBackupFile fs vm path (lc "modify") else vm
      let fs1 := fsSet fs path content
      let action := if old_content = none ∨ old_content = some [] then lc "created" else lc "updated"
      ⟨successMsg action path, fs1, vm1⟩

/- ------------------------------------------------------------------ -/
/- EditFileTool.execute (filesystem_tools.py lines 134-163). -/

/-- `EditFileTool.execute(file_path, target, replacement)` translated from
filesystem_tools.py lines 134-163. -/
def editFileExec (fs : FS) (vm : VMState) (path target replacement : Str) : ToolOut :=
  if pyStrip target = [] then
    ⟨lc "Error: `target` cannot be empty.", fs, vm⟩
  else
    match fsGet fs path with
    | none => ⟨lc "Error: File " ++ path ++ lc " does not exist. Use `write_file` for new files.", fs, vm⟩
    | some content =>
      if containsSub target content = false then
        ⟨lc "Error: Target text not found in " ++ path, fs, vm⟩
      else if countOccs target content > 1 then
        ⟨lc "Error: Target found multiple times. Must be unique.", fs, vm⟩
      else
        let vm1 := vmBackupFile fs vm path (lc "edit")
        let new_content := replaceAll target replacement content
        ⟨lc "Successfully edited " ++ path, fsSet fs path new_content, vm1⟩

/- ------------------------------------------------------------------ -/
/- PatchFileTool.execute (filesystem_tools.py lines 251-403). -/

/-- Python `readlines()`: split into lines, each keeping its trailing
newline; no final empty line. -/
def splitKeepNl : Str → List Str
  | [] => []
  | c :: rest =>
    if c = '\n' then ['\n'] :: splitKeepNl rest
    else
      match splitKeepNl rest with
      | [] => [[c]]
      | x :: xs => (c :: x) :: xs

/-- Python `writelines`: concatenate the lines back. -/
def concatAll (ls : List Str) : Str := ls.foldr (fun a b => a ++ b) []

/-- `content.endswith("\n")`. -/
def endsNl (l : Str) : Bool := l.getLast? = some '\n'

/-- `if not content.endswith("\n"): content += "\n"`. -/
def ensureNl (l : Str) : Str := if endsNl l then l else l ++ ['\n']

/-- Python `list.insert(i, x)` (an index past the end appends). -/
def insertAt (i : Nat) (x : α) (l : List α) : List α :=
  l.take i ++ [x] ++ l.drop i

/-- Normalise a Python slice index against a list of length `n`. -/
def pyIdx (n : Nat) (i : Int) : Nat :=
  if i < 0 then (max 0 (n + i)).toNat else min i.toNat n

/-- First line index whose line contains the marker
(the `for i, line in enumerate(lines): if marker in line` loops). -/
def findMarker (marker : Str) : List Str → Option Nat
  | [] => none
  | l :: rest =>
    if containsSub marker l then some 0 else (findMarker marker rest).map (· + 1)

/-- The patch operations of `PatchFileTool` with their arguments
(`kwargs` defaults are supplied by the caller of the model). -/
inductive PatchOp where
  | insert_at_line (line : Int) (content : Str)
  | replace_lines (start_line end_line : Int) (content : Str)
  | append (content : Str)
  | prepend (content : Str)
  | add_after (marker content : Str)
  | add_before (marker content : Str)
  | delete_lines (start_line end_line : Int)
deriving DecidableEq

/-- The line-list transformation of one patch operation; `none` models the
marker-not-found error returns. -/
def applyPatchOp (op : PatchOp) (ls : List Str) : Option (List Str) :=
  match op with
  | .insert_at_line line content =>
    let line1 : Int := if line < 1 then 1 else line
    let line2 : Int := if line1 > (ls.length : Int) + 1 then (ls.length : Int) + 1 else line1
    some (insertAt (line2 - 1).toNat (ensureNl content) ls)
  | .replace_lines s e content =>
    let s1 : Int := if s < 1 then 1 else s
    let e1 : Int := if e > (ls.length : Int) then (ls.length : Int) else e
    let a := pyIdx ls.length (s1 - 1)
    let b := pyIdx ls.length e1
    some (ls.take a ++ [ensureNl content] ++ ls.drop (max a b))
  | .append content =>
    let c1 := if !(hasPre (lc "\n") content) && !(ls.isEmpty) &&
                 !((ls.getLast?.getD []).getLast? = some '\n' : Bool)
              then '\n' :: content else content
    some (ls ++ [ensureNl c1])
  | .prepend content => some (ensureNl content :: ls)
  | .add_after marker content =>
    if marker = [] then none
    else
      match findMarker marker ls with
      | some i => some (insertAt (i + 1) (ensureNl content) ls)
      | none => none
  | .add_before marker content =>
    if marker = [] then none
    else
      match findMarker marker ls with
      | some i => some (insertAt i (ensureNl content) ls)
      | none => none
  | .delete_lines s e =>
    let s1 : Int := if s < 1 then 1 else s
    let e1 : Int := if e > (ls.length : Int) then (ls.length : Int) else e
    let a := pyIdx ls.length (s1 - 1)
    let b := pyIdx ls.length e1
    some (ls.take a ++ ls.drop (max a b))

/-- `PatchFileTool.execute(file_path, operation, **kwargs)` translated from
filesystem_tools.py lines 269-385: backup first, then read lines, apply the
operation, and write back; marker errors return after the backup already
happened. -/
def patchFileExec (fs : FS) (vm : VMState) (path : Str) (op : PatchOp) : ToolOut :=
  match fsGet fs path with
  | none => ⟨lc "Error: File " ++ path ++ lc " not found.", fs, vm⟩
  | some content =>
    let vm1 := vmBackupFile fs vm path (lc "patch")
    let ls := splitKeepNl content
    match applyPatchOp op ls with
    | none => ⟨lc "Error: Marker not found in file", fs, vm1⟩
    | some ls1 => ⟨lc "Success: patched " ++ path, fsSet fs path (concatAll ls1), vm1⟩

/-- The three mutating filesystem actions the backup invariant ranges over. -/
inductive FsOp where
  | write (path content : Str)
  | edit (path target replacement : Str)
  | patch (path : Str) (op : PatchOp)
deriving DecidableEq

/-- Dispatch one mutating action. -/
def applyFsOp : FsOp → FS → VMState → ToolOut
  | .write p c, fs, vm => writeFileExec fs vm p c
  | .edit p t r, fs, vm => editFileExec fs vm p t r
  | .patch p op, fs, vm => patchFileExec fs vm p op

/-- Writing one path does not change any other path. -/
theorem fsGet_fsSet_ne (fs : FS) (q p c : Str) (h : q ≠ p) :
    fsGet (fsSet fs q c) p = fsGet fs p := by
  induction fs with
  | nil => simp [fsSet, fsGet, h]
  | cons hd tl ih =>
    obtain ⟨a, b⟩ := hd
    by_cases ha : a = q
    · subst ha
      simp only [fsSet, if_pos rfl, fsGet]
      rw [if_neg h]
      rw [if_neg h]
    · simp only [fsSet, if_neg ha, fsGet]
      by_cases hap : a = p
      · simp [hap]
      · simp only [if_neg hap]
        exact ih

/-- Writing a path makes it hold the written content. -/
theorem fsGet_fsSet_eq (fs : FS) (p c : Str) :
    fsGet (fsSet fs p c) p = some c := by
  induction fs with
  | nil => simp [fsSet, fsGet]
  | cons hd tl ih =>
    obtain ⟨a, b⟩ := hd
    by_cases ha : a = p
    · subst ha
      simp [fsSet, fsGet]
    · simp only [fsSet, if_neg ha, fsGet, if_neg ha]
      exact ih

/-- A prefix of `l` is a prefix of `l ++ r`. -/
theorem hasPre_append (pat l r : Str) (h : hasPre pat l = true) :
    hasPre pat (l ++ r) = true := by
  induction pat generalizing l with
  | nil => simp [hasPre]
  | cons p ps ih =>
    cases l with
    | nil => simp [hasPre] at h
    | cons c cs =>
      simp only [hasPre, Bool.and_eq_true, List.cons_append] at h ⊢
      exact ⟨h.1, ih cs h.2⟩

/-- For a non-empty pattern, Python's `in` test agrees with a positive
`count`. -/
theorem containsSub_iff_countOccs_pos (t : Str) (ht : t ≠ []) (l : Str) :
    containsSub t l = true ↔ 1 ≤ countOccs t l := by
  induction l with
  | nil =>
    cases t with
    | nil => exact absurd rfl ht
    | cons a as => simp [containsSub, hasPre, countOccs, countOccsF]
  | cons c cs ih =>
    by_cases hp : hasPre t (c :: cs) = true
    · rw [countOccs_cons, if_pos hp]
      simp [containsSub, hp]
    · rw [countOccs_cons, if_neg hp]
      simp only [containsSub, Bool.or_eq_true]
      rw [show (hasPre t (c :: cs) = true) ↔ False by simp [hp]]
      simp only [false_or]
      exact ih

/-- C2: whenever a `write_file`, `edit_file` or `patch_file` execution
changes the content of an existing file, the Version Store ledger of the
result contains exactly one new BackupEntry, and that entry records the
file's pre-mutation content (the backup completed before the overwrite). -/
theorem backup_entry_before_overwrite (op : FsOp) (fs : FS) (vm : VMState)
    (p c : Str) (hex : fsGet fs p = some c)
    (hch : fsGet (applyFsOp op fs vm).fs p ≠ some c) :
    ∃ e : BackupEntry, (applyFsOp op fs vm).vm.history = vm.history ++ [e] ∧
      e.file_path = p ∧ e.content = c := by
  cases op with
  | write q content =>
    simp only [applyFsOp, writeFileExec] at hch ⊢
    by_cases h1 : content = []
    · rw [if_pos h1] at hch
      exact absurd hex hch
    · rw [if_neg h1] at hch ⊢
      by_cases h2 : qualityRejected content = true
      · rw [if_pos h2] at hch
        exact absurd hex hch
      · rw [if_neg h2] at hch ⊢
        by_cases hqp : q = p
        · subst hqp
          refine ⟨⟨q, c, lc "modify"⟩, ?_, rfl, rfl⟩
          simp [hex, vmBackupFile, Option.isSome]
        · rw [show fsGet (fsSet fs q content) p = fsGet fs p from
            fsGet_fsSet_ne fs q p content hqp] at hch
          exact absurd hex hch
  | edit q t r =>
    simp only [applyFsOp, editFileExec] at hch ⊢
    by_cases h1 : pyStrip t = []
    · rw [if_pos h1] at hch
      exact absurd hex hch
    · rw [if_neg h1] at hch ⊢
      by_cases hqp : q = p
      · subst hqp
        simp only [hex] at hch ⊢
        by_cases h2 : containsSub t c = false
        · rw [if_pos h2] at hch
          exact absurd hex hch
        · rw [if_neg h2] at hch ⊢
          by_cases h3 : countOccs t c > 1
          · rw [if_pos h3] at hch
            exact absurd hex hch
          · rw [if_neg h3]
            refine ⟨⟨q, c, lc "edit"⟩, ?_, rfl, rfl⟩
            simp [vmBackupFile, hex]
      · cases hq : fsGet fs q with
        | none =>
          simp only [hq] at hch
          exact absurd hex hch
        | some content0 =>
          simp only [hq] at hch ⊢
          by_cases h2 : containsSub t content0 = false
          · rw [if_pos h2] at hch
            exact absurd hex hch
          · rw [if_neg h2] at hch ⊢
            by_cases h3 : countOccs t content0 > 1
            · rw [if_pos h3] at hch
              exact absurd hex hch
            · rw [if_neg h3] at hch
              rw [show fsGet (fsSet fs q (replaceAll t r content0)) p = fsGet fs p from
                fsGet_fsSet_ne fs q p _ hqp] at hch
              exact absurd hex hch
  | patch q op =>
    simp only [applyFsOp, patchFileExec] at hch ⊢
    by_cases hqp : q = p
    · subst hqp
      simp only [hex] at hch ⊢
      cases hop : applyPatchOp op (splitKeepNl c) with
      | none =>
        simp only [hop] at hch
        exact absurd hex hch
      | some ls1 =>
        simp only [hop]
        refine ⟨⟨q, c, lc "patch"⟩, ?_, rfl, rfl⟩
        simp [vmBackupFile, hex]
    · cases hq : fsGet fs q with
      | none =>
        simp only [hq] at hch
        exact absurd hex hch
      | some content0 =>
        simp only [hq] at hch ⊢
        cases hop : applyPatchOp op (splitKeepNl content0) with
        | none =>
          simp only [hop] at hch
          exact absurd hex hch
        | some ls1 =>
          simp only [hop] at hch
          rw [show fsGet (fsSet fs q (concatAll ls1)) p = fsGet fs p from
            fsGet_fsSet_ne fs q p _ hqp] at hch
          exact absurd hex hch

/-- Witness for `backup_entry_before_overwrite`: an `edit_file` call that
replaces `foo` with `bar` in an existing one-line file extends the ledger
with the pre-mutation content. -/
theorem backup_entry_before_overwrite_witness :
    fsGet [(lc "a.txt", lc "foo baz")] (lc "a.txt") = some (lc "foo baz") ∧
    ∃ e : BackupEntry,
      (applyFsOp (.edit (lc "a.txt") (lc "foo") (lc "bar"))
        [(lc "a.txt", lc "foo baz")] ⟨[]⟩).vm.history = [] ++ [e] ∧
      e.file_path = lc "a.txt" ∧ e.content = lc "foo baz" := by
  refine ⟨by decide, ?_⟩
  exact backup_entry_before_overwrite (.edit (lc "a.txt") (lc "foo") (lc "bar"))
    [(lc "a.txt", lc "foo baz")] ⟨[]⟩ (lc "a.txt") (lc "foo baz")
    (by decide) (by decide)

/-- C3: on an existing file whose content contains the target zero times or
more than once (Python's non-overlapping count, as computed by the code),
`edit_file` returns a marker error and leaves the file system unchanged;
conversely a change to the file system is only possible when the target is
non-empty and occurs exactly once. -/
theorem edit_unique_target (fs : FS) (vm : VMState) (p t r c : Str)
    (hex : fsGet fs p = some c) :
    ((countOccs t c = 0 ∨ 1 < countOccs t c) →
      (editFileExec fs vm p t r).fs = fs ∧
      isMarkerError (editFileExec fs vm p t r).msg = true) ∧
    ((editFileExec fs vm p t r).fs ≠ fs → t ≠ [] ∧ countOccs t c = 1) := by
  constructor
  · intro hcnt
    by_cases h1 : pyStrip t = []
    · have he : editFileExec fs vm p t r = ⟨lc "Error: `target` cannot be empty.", fs, vm⟩ := by
        simp only [editFileExec, if_pos h1]
      rw [he]
      refine ⟨rfl, ?_⟩
      show isMarkerError (lc "Error: `target` cannot be empty.") = true
      decide
    · have ht : t ≠ [] := by
        intro h
        subst h
        simp [pyStrip] at h1
      simp only [editFileExec, if_neg h1, hex]
      cases hcnt with
      | inl h0 =>
        have hcs : containsSub t c = false := by
          by_contra hcontra
          have : containsSub t c = true := by
            cases hcsv : containsSub t c
            · exact absurd hcsv hcontra
            · rfl
          have := (containsSub_iff_countOccs_pos t ht c).mp this
          omega
        rw [if_pos hcs]
        refine ⟨rfl, ?_⟩
        simp only [isMarkerError]
        rw [hasPre_append (lc "Error:") (lc "Error: Target text not found in ") p (by decide)]
        simp
      | inr h2 =>
        have hcs : containsSub t c = true := by
          apply (containsSub_iff_countOccs_pos t ht c).mpr
          omega
        rw [if_neg (by simp [hcs] : ¬ containsSub t c = false), if_pos h2]
        refine ⟨rfl, ?_⟩
        show isMarkerError (lc "Error: Target found multiple times. Must be unique.") = true
        decide
  · intro hfs
    by_cases h1 : pyStrip t = []
    · rw [editFileExec, if_pos h1] at hfs
      exact absurd rfl hfs
    · have ht : t ≠ [] := by
        intro h
        subst h
        simp [pyStrip] at h1
      rw [editFileExec, if_neg h1] at hfs
      simp only [hex] at hfs
      by_cases h2 : containsSub t c = false
      · rw [if_pos h2] at hfs
        exact absurd rfl hfs
      · rw [if_neg h2] at hfs
        by_cases h3 : countOccs t c > 1
        · rw [if_pos h3] at hfs
          exact absurd rfl hfs
        · have hcs : containsSub t c = true := by
            cases hcsv : containsSub t c
            · exact absurd hcsv h2
            · rfl
          have hpos := (containsSub_iff_countOccs_pos t ht c).mp hcs
          exact ⟨ht, by omega⟩

/-- Witness for `edit_unique_target`: a file containing `foo` exactly twice
is rejected with a marker error and the file system is unchanged. -/
theorem edit_unique_target_witness :
    fsGet [(lc "a.txt", lc "foo baz foo")] (lc "a.txt") = some (lc "foo baz foo") ∧
    (1 < countOccs (lc "foo") (lc "foo baz foo")) ∧
    (editFileExec [(lc "a.txt", lc "foo baz foo")] ⟨[]⟩ (lc "a.txt")
      (lc "foo") (lc "bar")).fs = [(lc "a.txt", lc "foo baz foo")] ∧
    isMarkerError ((editFileExec [(lc "a.txt", lc "foo baz foo")] ⟨[]⟩ (lc "a.txt")
      (lc "foo") (lc "bar")).msg) = true := by
  refine ⟨by decide, by decide, ?_⟩
  have h := (edit_unique_target [(lc "a.txt", lc "foo baz foo")] ⟨[]⟩ (lc "a.txt")
    (lc "foo") (lc "bar") (lc "foo baz foo") (by decide)).1 (Or.inr (by decide))
  exact h

/-- C7 counterexample: writing non-placeholder content to an *existing but
empty* file reports "created", not "updated" (the code tests Python
truthiness of the old content, not existence), although the file existed
and a BackupEntry is produced for it. -/
theorem write_existing_empty_reports_created :
    fsGet [(lc "a.txt", [])] (lc "a.txt") = some [] ∧
    (writeFileExec [(lc "a.txt", [])] ⟨[]⟩ (lc "a.txt")
      (lc "line1\nline2\nline3")).msg = lc "Successfully created a.txt" ∧
    containsSub (lc "updated")
      ((writeFileExec [(lc "a.txt", [])] ⟨[]⟩ (lc "a.txt")
        (lc "line1\nline2\nline3")).msg) = false ∧
    (writeFileExec [(lc "a.txt", [])] ⟨[]⟩ (lc "a.txt")
      (lc "line1\nline2\nline3")).vm.history =
      [⟨lc "a.txt", [], lc "modify"⟩] := by
  refine ⟨by decide, by decide, by decide, by decide⟩

/-- C7 (amended): `write_file` rejects empty content with a marker error;
content that trips the quality guard is rejected with a VIOLATION marker
and no write; otherwise, on a non-existent path it writes exactly the given
bytes, reports "created" and produces no BackupEntry, and on an existing
path it appends a BackupEntry holding the old content and then overwrites,
reporting "updated" when the old content was non-empty and "created" when
the existing file was empty. -/
theorem write_file_behaviour (fs : FS) (vm : VMState) (p content : Str)
    (hne : content ≠ []) (hq : qualityRejected content = false) :
    (writeFileExec fs vm p [] = ⟨lc "Error: Content cannot be empty.", fs, vm⟩) ∧
    (fsGet fs p = none →
      writeFileExec fs vm p content =
        ⟨successMsg (lc "created") p, fsSet fs p content, vm⟩) ∧
    (∀ old, fsGet fs p = some old →
      writeFileExec fs vm p content =
        ⟨(if old = [] then successMsg (lc "created") p else successMsg (lc "updated") p),
         fsSet fs p content, ⟨vm.history ++ [⟨p, old, lc "modify"⟩]⟩⟩) ∧
    (∀ content2, content2 ≠ [] → qualityRejected content2 = true →
      writeFileExec fs vm p content2 =
        ⟨lc "VIOLATION: Content appears to be a placeholder comment, not real code.",
         fs, vm⟩) := by
    have hq1 : ¬ (qualityRejected content = true) := by simp [hq]
    refine ⟨rfl, ?_, ?_, ?_⟩
    · intro hnone
      simp only [writeFileExec, if_neg hne, if_neg hq1, hnone]
      simp [successMsg, Option.isSome]
    · intro old hold
      simp only [writeFileExec, if_neg hne, if_neg hq1, hold]
      by_cases hemp : old = []
      · simp [hemp, vmBackupFile, hold, successMsg, Option.isSome]
      · simp [hemp, vmBackupFile, hold, successMsg, Option.isSome]
    · intro content2 hne2 hq2
      simp only [writeFileExec, if_neg hne2, if_pos hq2]

/-- Witness for `write_file_behaviour`: a fresh two-line write is created
byte-exactly with no BackupEntry. -/
theorem write_file_behaviour_witness :
    writeFileExec [] ⟨[]⟩ (lc "new.txt") (lc "hello\nworld\n") =
      ⟨successMsg (lc "created") (lc "new.txt"),
       [(lc "new.txt", lc "hello\nworld\n")], ⟨[]⟩⟩ ∧
    writeFileExec [] ⟨[]⟩ (lc "new.txt") (lc "# updated") =
      ⟨lc "VIOLATION: Content appears to be a placeholder comment, not real code.",
       [], ⟨[]⟩⟩ := by
  refine ⟨?_, ?_⟩
  · exact (write_file_behaviour [] ⟨[]⟩ (lc "new.txt") (lc "hello\nworld\n")
      (by decide) (by decide)).2.1 (by decide)
  · exact (write_file_behaviour [] ⟨[]⟩ (lc "new.txt") (lc "hello\nworld\n")
      (by decide) (by decide)).2.2.2 (lc "# updated") (by decide) (by decide)

/- ------------------------------------------------------------------ -/
/- The git-backed Version Store (core/git_version_manager.py).

   A commit is a snapshot of the tracked file contents; the commit list
   grows by one whenever `backup_file` finds the file changed since HEAD
   (`git add` + `git status --porcelain` + `git commit`).  The returned
   "backup path" is the commit hash, modelled as the index of the commit
   in the list (`git rev-parse HEAD`). -/

/-- State of the git-backed store: the working tree, the commit list
(last entry is HEAD; `_init_git` guarantees an initial commit), and the
in-memory `task_files` list of the current task. -/
structure GitState where
  disk : FS
  commits : List FS
  task_files : List Str
deriving DecidableEq

/-- The HEAD snapshot (empty tree when there is no commit yet). -/
def gitHead (s : GitState) : FS := (s.commits.getLast?).getD []

/-- `GitVersionManager.set_commit_message` (lines 71-75): opens a task
boundary and resets `task_files`. -/
def set_commit_message (s : GitState) : GitState := { s with task_files := [] }

/-- `GitVersionManager.backup_file(file_path, action)` (lines 77-114):
no-op returning `None` when the file does not exist; otherwise track the
file in `task_files`, and if its on-disk content differs from HEAD, commit
it (the pre-mutation state) and return the new HEAD, else return the
current HEAD. -/
def backup_file (s : GitState) (p : Str) : Option Nat × GitState :=
  match fsGet s.disk p with
  | none => (none, s)
  | some c =>
    let tf := if s.task_files.contains p then s.task_files else s.task_files ++ [p]
    if fsGet (gitHead s) p = some c then
      (some (s.commits.length - 1), { s with task_files := tf })
    else
      (some s.commits.length,
       { s with commits := s.commits ++ [fsSet (gitHead s) p c], task_files := tf })

/-- Content of `p` as recorded by commit `n` (`git show n:p`), the
restorable content behind a backup reference. -/
def restoreContent (s : GitState) (n : Nat) (p : Str) : Option Str :=
  (s.commits.get? n).bind (fun snap => fsGet snap p)

/-- `git checkout HEAD -- p`: overwrite the working file with the HEAD
version (no-op when HEAD does not have the file). -/
def checkoutHead (s : GitState) (p : Str) : GitState :=
  match fsGet (gitHead s) p with
  | none => s
  | some c => { s with disk := fsSet s.disk p c }

/-- `GitVersionManager.undo_task()` with no task id on a non-empty current
task (lines 203-217): check out HEAD for every `task_files` entry in
reverse order, then clear the list.  (The history-based fallback for past
tasks, lines 219-250, is not taken on this branch and is not modelled.) -/
def undo_task (s : GitState) : GitState :=
  if s.task_files = [] then s
  else
    let s1 := (s.task_files.reverse).foldl (fun st p => checkoutHead st p) s
    { s1 with task_files := [] }

/-- The backup step of `write_file` followed by the overwrite itself, on
the git-backed store (the wiring `zion/cli.py` installs). -/
def gitWrite (s : GitState) (p content : Str) : GitState :=
  let s1 := (backup_file s p).2
  { s1 with disk := fsSet s1.disk p content }

/-- The reference returned by `backup_file`. -/
def backupRef (s : GitState) (p : Str) : Option Nat := (backup_file s p).1

/-- The store state after `backup_file`. -/
def backupSt (s : GitState) (p : Str) : GitState := (backup_file s p).2

/-- C1 (code bug): within one task, a file written twice is *not* restored
to its pre-task state by `undo_task()`.  Concretely: `f` starts as `c0`;
the first write backs up `c0` and writes `c1`; the second write backs up
`c1` (HEAD advances) and writes `c2`; `undo_task()` checks out HEAD and
leaves `f = c1`, not the earliest-captured `c0` that the claim (and the
comment inside `undo_task` itself) promises. -/
theorem undo_task_not_earliest_state :
    fsGet (undo_task (gitWrite (gitWrite
        ⟨[(lc "f", lc "c0")], [[]], []⟩ (lc "f") (lc "c1")) (lc "f") (lc "c2"))).disk
      (lc "f") = some (lc "c1") ∧
    lc "c1" ≠ lc "c0" := by
  refine ⟨by decide, by decide⟩

/-- Lookup after `fsSet` at the written path. -/
theorem getLast_append_single (l : List FS) (x : FS) :
    (l ++ [x]).getLast? = some x := by
  simp [List.getLast?_append]

/-- C5: calling `backup_file` twice with no intervening change to the file
returns the same reference both times, and restoring through that
reference yields exactly the content the file had when backed up. -/
theorem backup_file_idempotent (s : GitState) (p c : Str)
    (hc : fsGet s.disk p = some c) :
    backupRef s p = backupRef (backupSt s p) p ∧
    ∃ n, backupRef s p = some n ∧
      restoreContent (backupSt (backupSt s p) p) n p = some c := by
  by_cases hh : fsGet (gitHead s) p = some c
  · have h1 : backup_file s p =
        (some (s.commits.length - 1),
         { s with task_files := if s.task_files.contains p then s.task_files
                                else s.task_files ++ [p] }) := by
      simp only [backup_file, hc, if_pos hh]
    have hd2 : fsGet (backupSt s p).disk p = some c := by
      simp [backupSt, h1, hc]
    have hh2 : fsGet (gitHead (backupSt s p)) p = some c := by
      simp only [backupSt, h1, gitHead]
      exact hh
    have h2 : backup_file (backupSt s p) p =
        (some ((backupSt s p).commits.length - 1),
         { backupSt s p with
             task_files := if (backupSt s p).task_files.contains p
                           then (backupSt s p).task_files
                           else (backupSt s p).task_files ++ [p] }) := by
      simp only [backup_file, hd2, if_pos hh2]
    have hlen : (backupSt s p).commits = s.commits := by
      simp [backupSt, h1]
    constructor
    · simp [backupRef, h1, h2, hlen]
    · refine ⟨s.commits.length - 1, by simp [backupRef, h1], ?_⟩
      have hcommits : (backupSt (backupSt s p) p).commits = s.commits := by
        show (backup_file (backupSt s p) p).2.commits = s.commits
        rw [h2]
        simpa using hlen
      simp only [restoreContent, hcommits]
      cases hcl : s.commits with
      | nil =>
        exfalso
        rw [gitHead, hcl] at hh
        simp [fsGet] at hh
      | cons a as =>
        have hne : s.commits ≠ [] := by simp [hcl]
        have : s.commits.get? (s.commits.length - 1) = s.commits.getLast? := by
          rw [List.getLast?_eq_get? ]
        rw [hcl] at hne
        rw [← hcl]
        rw [this]
        have : s.commits.getLast? = some (gitHead s) := by
          rw [gitHead]
          cases hgl : s.commits.getLast? with
          | none =>
            rw [List.getLast?_eq_none_iff] at hgl
            rw [hcl] at hgl
            simp at hgl
          | some snap => simp
        rw [this]
        simpa using hh
  · have h1 : backup_file s p =
        (some s.commits.length,
         { s with commits := s.commits ++ [fsSet (gitHead s) p c],
                  task_files := if s.task_files.contains p then s.task_files
                                else s.task_files ++ [p] }) := by
      simp only [backup_file, hc, if_neg hh]
    have hd2 : fsGet (backupSt s p).disk p = some c := by
      simp [backupSt, h1, hc]
    have hh2 : fsGet (gitHead (backupSt s p)) p = some c := by
      simp only [backupSt, h1, gitHead, getLast_append_single]
      simp [fsGet_fsSet_eq]
    have h2 : backup_file (backupSt s p) p =
        (some ((backupSt s p).commits.length - 1),
         { backupSt s p with
             task_files := if (backupSt s p).task_files.contains p
                           then (backupSt s p).task_files
                           else (backupSt s p).task_files ++ [p] }) := by
      simp only [backup_file, hd2, if_pos hh2]
    have hlen2 : (backupSt s p).commits.length = s.commits.length + 1 := by
      simp [backupSt, h1]
    constructor
    · simp [backupRef, h1, h2, hlen2]
    · refine ⟨s.commits.length, by simp [backupRef, h1], ?_⟩
      have hcommits : (backupSt (backupSt s p) p).commits =
          s.commits ++ [fsSet (gitHead s) p c] := by
        show (backup_file (backupSt s p) p).2.commits = s.commits ++ [fsSet (gitHead s) p c]
        rw [h2]
        simp [backupSt, h1]
      simp only [restoreContent, hcommits]
      have : (s.commits ++ [fsSet (gitHead s) p c]).get? s.commits.length =
          some (fsSet (gitHead s) p c) := by
        rw [List.get?_append_right (le_refl _)]
        simp
      rw [this]
      simp [fsGet_fsSet_eq]

/-- Witness for `backup_file_idempotent` on a one-file workspace with an
initial empty commit. -/
theorem backup_file_idempotent_witness :
    backupRef ⟨[(lc "f", lc "v1")], [[]], []⟩ (lc "f") =
      backupRef (backupSt ⟨[(lc "f", lc "v1")], [[]], []⟩ (lc "f")) (lc "f") ∧
    ∃ n, backupRef ⟨[(lc "f", lc "v1")], [[]], []⟩ (lc "f") = some n ∧
      restoreContent
        (backupSt (backupSt ⟨[(lc "f", lc "v1")], [[]], []⟩ (lc "f")) (lc "f"))
        n (lc "f") = some (lc "v1") := by
  exact backup_file_idempotent ⟨[(lc "f", lc "v1")], [[]], []⟩ (lc "f") (lc "v1")
    (by decide)

/- ------------------------------------------------------------------ -/
/- The Response Interpreter (core/orchestrator.py lines 126-218). -/

/-- The escaping of `replace_triple_quotes` (orchestrator.py lines 134-142):
backslash, double quote, newline, carriage return, tab, in that order. -/
def escJson (content : Str) : Str :=
  replaceAll (lc "\t") (lc "\\t")
    (replaceAll (lc "\r") (lc "\\r")
      (replaceAll (lc "\n") (lc "\\n")
        (replaceAll (lc "\"") (lc "\\\"")
          (replaceAll (lc "\\") (lc "\\\\") content))))

/-- Split a string at the first `"""`, returning the part before it and
the part after it (the lazy `(.*?)"""` of the triple-quote regex). -/
def splitAtTriple : Str → Option (Str × Str)
  | [] => none
  | c :: rest =>
    if hasPre (lc "\"\"\"") (c :: rest) then some ([], rest.drop 2)
    else
      match splitAtTriple rest with
      | some (a, b) => some (c :: a, b)
      | none => none

/-- Try to match `\s*"""` right after a colon and capture lazily up to the
closing `"""`; returns the captured content and the rest of the input. -/
def tryTripleOpen (l : Str) : Option (Str × Str) :=
  let l1 := dropPyWs l
  if hasPre (lc "\"\"\"") l1 then splitAtTriple (l1.drop 3) else none

/-- Fuelled scanner behind `_preprocess_response`: scan for `:` openings of
triple-quoted values and re-escape them (`re.sub` over
`:\s*"""(.*?)"""`, orchestrator.py lines 126-145). -/
def preprocessAuxF : Nat → Str → Str
  | _, [] => []
  | 0, l => l
  | fuel + 1, c :: rest =>
    if c = ':' then
      match tryTripleOpen rest with
      | some (content, rest2) =>
        ':' :: ' ' :: '"' :: (escJson content ++ '"' :: preprocessAuxF fuel rest2)
      | none => c :: preprocessAuxF fuel rest
    else c :: preprocessAuxF fuel rest

/-- `AgentOrchestrator._preprocess_response`. -/
def _preprocess_response (l : Str) : Str := preprocessAuxF l.length l

/-- JSON-like values as produced by `json.loads` / `ast.literal_eval` on a
tool-call object (numbers are modelled as integers; floats and `\uXXXX`
escapes are outside the modelled subset). -/
inductive JVal where
  | jnull
  | jbool (b : Bool)
  | jnum (n : Int)
  | jstr (s : Str)
  | jarr (xs : List JVal)
  | jobj (fields : List (Str × JVal))

/-- JSON whitespace skip (`json.loads` tolerates space, tab, newline, CR). -/
def skipWsJ (l : Str) : Str :=
  l.dropWhile (fun c => c == ' ' || c == '\t' || c == '\n' || c == '\r')

/-- One JSON string escape (`\uXXXX` is outside the modelled subset). -/
def unescChar (e : Char) : Option Char :=
  if e = '"' then some '"'
  else if e = '\\' then some '\\'
  else if e = '/' then some '/'
  else if e = 'b' then some '\x08'
  else if e = 'f' then some '\x0c'
  else if e = 'n' then some '\n'
  else if e = 'r' then some '\r'
  else if e = 't' then some '\t'
  else none

/-- Body of a JSON string after the opening quote: strict `json.loads`
lexing (raw control characters below 0x20 are rejected). -/
def parseStrBody : Str → Option (Str × Str)
  | [] => none
  | c :: rest =>
    if c = '\\' then
      match rest with
      | [] => none
      | e :: rest2 =>
        match unescChar e with
        | some d => (parseStrBody rest2).map (fun sr => (d :: sr.1, sr.2))
        | none => none
    else if c = '"' then some ([], rest)
    else if c.toNat < 32 then none
    else (parseStrBody rest).map (fun sr => (c :: sr.1, sr.2))

/-- Digits to a natural number. -/
def digitsToNat (l : Str) : Nat :=
  l.foldl (fun a c => a * 10 + (c.toNat - 48)) 0

/-- JSON integer literal (floats and exponents are outside the modelled
subset and yield `none`). -/
def parseNum (l : Str) : Option (JVal × Str) :=
  let neg := hasPre (lc "-") l
  let l1 := if neg then l.drop 1 else l
  let ds := l1.takeWhile Char.isDigit
  let rest := l1.drop ds.length
  if ds = [] then none
  else if 1 < ds.length ∧ ds.headI = '0' then none
  else if hasPre (lc ".") rest ∨ hasPre (lc "e") rest ∨ hasPre (lc "E") rest then none
  else some (.jnum (if neg then -(digitsToNat ds : Int) else (digitsToNat ds : Int)), rest)

/-- Which grammar production a fuelled parser step is parsing. -/
inductive PKind where
  | kval
  | kfields
  | kelems

/-- Result of a fuelled parser step. -/
inductive PRes where
  | rv (v : JVal)
  | rfs (fs : List (Str × JVal))
  | rxs (xs : List JVal)

/-- Fuelled recursive-descent JSON parser (the modelled core of
`json.loads`): values, non-empty object field lists, non-empty array
element lists.  Structural on the fuel so the kernel can evaluate it. -/
def parseF : Nat → PKind → Str → Option (PRes × Str)
  | 0, _, _ => none
  | f + 1, .kval, l =>
    let l0 := skipWsJ l
    if hasPre (lc "null") l0 then some (.rv .jnull, l0.drop 4)
    else if hasPre (lc "true") l0 then some (.rv (.jbool true), l0.drop 4)
    else if hasPre (lc "false") l0 then some (.rv (.jbool false), l0.drop 5)
    else
      match l0 with
      | '"' :: r => (parseStrBody r).map (fun sr => (.rv (.jstr sr.1), sr.2))
      | '{' :: r =>
        (match skipWsJ r with
         | '}' :: r1 => some (.rv (.jobj []), r1)
         | r0 =>
           match parseF f .kfields r0 with
           | some (.rfs fs, rest) => some (.rv (.jobj fs), rest)
           | _ => none)
      | '[' :: r =>
        (match skipWsJ r with
         | ']' :: r1 => some (.rv (.jarr []), r1)
         | r0 =>
           match parseF f .kelems r0 with
           | some (.rxs xs, rest) => some (.rv (.jarr xs), rest)
           | _ => none)
      | _ => (parseNum l0).map (fun vr => (.rv vr.1, vr.2))
  | f + 1, .kfields, l =>
    match l with
    | '"' :: r =>
      (match parseStrBody r with
       | none => none
       | some (k, r1) =>
         match skipWsJ r1 with
         | ':' :: r2 =>
           (match parseF f .kval r2 with
            | some (.rv v, r3) =>
              (match skipWsJ r3 with
               | ',' :: r4 =>
                 (match parseF f .kfields (skipWsJ r4) with
                  | some (.rfs fs, r5) => some (.rfs ((k, v) :: fs), r5)
                  | _ => none)
               | '}' :: r4 => some (.rfs [(k, v)], r4)
               | _ => none)
            | _ => none)
         | _ => none)
    | _ => none
  | f + 1, .kelems, l =>
    match parseF f .kval l with
    | some (.rv v, r) =>
      (match skipWsJ r with
       | ',' :: r1 =>
         (match parseF f .kelems r1 with
          | some (.rxs xs, r2) => some (.rxs (v :: xs), r2)
          | _ => none)
       | ']' :: r1 => some (.rxs [v], r1)
       | _ => none)
    | _ => none

/-- `json.loads` on a complete document: parse one value and require only
whitespace to remain. -/
def jsonParse (l : Str) : Option JVal :=
  match parseF (2 * l.length + 2) .kval l with
  | some (.rv v, rest) => if (skipWsJ rest).isEmpty then some v else none
  | _ => none

/-- Key lookup in a parsed JSON object: Python dicts keep the *last*
binding of a duplicated key. -/
def jget (fields : List (Str × JVal)) (k : Str) : Option JVal :=
  (fields.reverse.find? (fun f => f.1 = k)).map (fun f => f.2)

/-- `"tool" in parsed` / `"args" in parsed`. -/
def hasKey (fields : List (Str × JVal)) (k : Str) : Bool :=
  fields.any (fun f => f.1 = k)

/-- One Python string escape (subset: the escapes a tool call would use). -/
def pyUnescChar (e : Char) : Option Char :=
  if e = '\'' then some '\''
  else if e = '"' then some '"'
  else if e = '\\' then some '\\'
  else if e = 'n' then some '\n'
  else if e = 'r' then some '\r'
  else if e = 't' then some '\t'
  else none

/-- Body of a Python string literal with quote character `q` (single-line;
a raw newline ends the literal with an error, as in Python source). -/
def pyStrBody (q : Char) : Str → Option (Str × Str)
  | [] => none
  | c :: rest =>
    if c = '\\' then
      match rest with
      | [] => none
      | e :: rest2 =>
        match pyUnescChar e with
        | some d => (pyStrBody q rest2).map (fun sr => (d :: sr.1, sr.2))
        | none => none
    else if c = q then some ([], rest)
    else if c = '\n' then none
    else (pyStrBody q rest).map (fun sr => (c :: sr.1, sr.2))

/-- Fuelled parser for the `ast.literal_eval` fallback (modelled subset:
strings in either quote style, integers, `True`/`False`/`None`, dicts with
string keys, and lists). -/
def plF : Nat → PKind → Str → Option (PRes × Str)
  | 0, _, _ => none
  | f + 1, .kval, l =>
    let l0 := skipWsJ l
    if hasPre (lc "None") l0 then some (.rv .jnull, l0.drop 4)
    else if hasPre (lc "True") l0 then some (.rv (.jbool true), l0.drop 4)
    else if hasPre (lc "False") l0 then some (.rv (.jbool false), l0.drop 5)
    else
      match l0 with
      | '"' :: r => (pyStrBody '"' r).map (fun sr => (.rv (.jstr sr.1), sr.2))
      | '\'' :: r => (pyStrBody '\'' r).map (fun sr => (.rv (.jstr sr.1), sr.2))
      | '{' :: r =>
        (match skipWsJ r with
         | '}' :: r1 => some (.rv (.jobj []), r1)
         | r0 =>
           match plF f .kfields r0 with
           | some (.rfs fs, rest) => some (.rv (.jobj fs), rest)
           | _ => none)
      | '[' :: r =>
        (match skipWsJ r with
         | ']' :: r1 => some (.rv (.jarr []), r1)
         | r0 =>
           match plF f .kelems r0 with
           | some (.rxs xs, rest) => some (.rv (.jarr xs), rest)
           | _ => none)
      | _ => (parseNum l0).map (fun vr => (.rv vr.1, vr.2))
  | f + 1, .kfields, l =>
    match l with
    | q :: r =>
      if q = '"' ∨ q = '\'' then
        match pyStrBody q r with
        | none => none
        | some (k, r1) =>
          (match skipWsJ r1 with
           | ':' :: r2 =>
             (match plF f .kval r2 with
              | some (.rv v, r3) =>
                (match skipWsJ r3 with
                 | ',' :: r4 =>
                   (match plF f .kfields (skipWsJ r4) with
                    | some (.rfs fs, r5) => some (.rfs ((k, v) :: fs), r5)
                    | _ => none)
                 | '}' :: r4 => some (.rfs [(k, v)], r4)
                 | _ => none)
              | _ => none)
           | _ => none)
      else none
    | _ => none
  | f + 1, .kelems, l =>
    match plF f .kval l with
    | some (.rv v, r) =>
      (match skipWsJ r with
       | ',' :: r1 =>
         (match plF f .kelems r1 with
          | some (.rxs xs, r2) => some (.rxs (v :: xs), r2)
          | _ => none)
       | ']' :: r1 => some (.rxs [v], r1)
       | _ => none)
    | _ => none

/-- `ast.literal_eval` on a complete expression (modelled subset). -/
def pyLitParse (l : Str) : Option JVal :=
  match plF (2 * l.length + 2) .kval l with
  | some (.rv v, rest) => if (skipWsJ rest).isEmpty then some v else none
  | _ => none

/- ------------------------------------------------------------------ -/
/- `parse_response` (orchestrator.py lines 147-218). -/

/-- Method 1 fence regex, matching at the current position:
` ```(?:json)?\s*(\{.*?\})\s*``` ` with DOTALL.  The optional `json` tag and
the whitespace runs are deterministic here because `j` and `{` are not
whitespace.  `fenceCap` is the lazy `(\{.*?\})` capture: the shortest body
whose closing `}` is followed by `\s*` then three backticks. -/
def fenceCap : Str → Option Str
  | [] => none
  | c :: rest =>
    if c = '}' ∧ hasPre (lc "```") (dropPyWs rest) then some [c]
    else (fenceCap rest).map (fun g => c :: g)

/-- Try the fence regex at the current position; returns the captured
`{...}` group. -/
def fenceFrom (l : Str) : Option Str :=
  if hasPre (lc "```") l then
    let r1 := l.drop 3
    let r2 := if hasPre (lc "json") r1 then r1.drop 4 else r1
    match dropPyWs r2 with
    | '{' :: body => (fenceCap body).map (fun g => '{' :: g)
    | _ => none
  else none

/-- `re.search` for the fence pattern: leftmost matching position. -/
def fenceSearch : Str → Option Str
  | [] => none
  | c :: rest =>
    match fenceFrom (c :: rest) with
    | some g => some g
    | none => fenceSearch rest

/-- Method 1 of `parse_response` (lines 154-163): a fenced JSON object is
accepted only if it parses and has both a `tool` and an `args` key. -/
def method1 (l : Str) : Option JVal :=
  match fenceSearch l with
  | none => none
  | some g =>
    match jsonParse g with
    | some (.jobj fields) =>
      if hasKey fields (lc "tool") && hasKey fields (lc "args") then
        some (.jobj fields)
      else none
    | _ => none

/-- Does `\{\s*"tool"\s*:` match at this position? -/
def toolOpenAt (l : Str) : Bool :=
  match l with
  | '{' :: r =>
    let r1 := dropPyWs r
    hasPre (lc "\"tool\"") r1 &&
      (match dropPyWs (r1.drop 6) with
       | ':' :: _ => true
       | _ => false)
  | _ => false

/-- `re.search(r'\{\s*"tool"\s*:', text)`: suffix starting at the first
match. -/
def findToolStart : Str → Option Str
  | [] => none
  | c :: rest =>
    if toolOpenAt (c :: rest) then some (c :: rest)
    else findToolStart rest

/-- The string-aware, escape-aware brace scan of method 2 (lines 169-193):
quotes toggle the in-string flag, a backslash escapes the next character,
braces count only outside strings; the scan stops at the first return of
the depth to zero and yields the balanced span. -/
def braceScanGo : Str → Int → Bool → Bool → Option Str
  | [], _, _, _ => none
  | c :: rest, depth, inStr, esc =>
    if esc then (braceScanGo rest depth inStr false).map (c :: ·)
    else if c = '\\' then (braceScanGo rest depth inStr true).map (c :: ·)
    else if c = '"' then (braceScanGo rest depth (!inStr) false).map (c :: ·)
    else if inStr then (braceScanGo rest depth inStr false).map (c :: ·)
    else if c = '{' then (braceScanGo rest (depth + 1) inStr false).map (c :: ·)
    else if c = '}' then
      (if depth - 1 = 0 then some [c]
       else (braceScanGo rest (depth - 1) inStr false).map (c :: ·))
    else (braceScanGo rest depth inStr false).map (c :: ·)

/-- Balanced span from the `{"tool":` opening. -/
def braceScan (l : Str) : Option Str := braceScanGo l 0 false false

/-- Method 2 of `parse_response` (lines 165-206): strict JSON on the
balanced span, else the permissive literal parse; on failure of both the
method falls through. -/
def method2 (l : Str) : Option JVal :=
  match findToolStart l with
  | none => none
  | some suff =>
    match braceScan suff with
    | none => none
    | some span =>
      match jsonParse span with
      | some v => some v
      | none => pyLitParse span

/-- The five tool names of the method 3 regex, in alternation order. -/
def m3Names : List Str :=
  [lc "read_file", lc "write_file", lc "run_command", lc "list_dir", lc "edit_file"]

/-- Try `name:\s*(\{[^}]+\})` for one name at the current position;
`[^}]+` runs to the first `}`. -/
def m3TryName (name : Str) (l : Str) : Option (Str × Str) :=
  if hasPre name l then
    match l.drop name.length with
    | ':' :: r =>
      (match dropPyWs r with
       | '{' :: body =>
         let inner := body.takeWhile (fun c => c ≠ '}')
         if inner ≠ [] ∧ hasPre (lc "\x7d") (body.drop inner.length) then
           some (name, '{' :: inner ++ ['}'])
         else none
       | _ => none)
    | _ => none
  else none

/-- First alternation hit at the current position. -/
def m3At (l : Str) : Option (Str × Str) :=
  (m3Names.map (fun n => m3TryName n l)).findSome? id

/-- `re.search` for the method 3 pattern: leftmost position, then
alternation order. -/
def m3Search : Str → Option (Str × Str)
  | [] => none
  | c :: rest =>
    match m3At (c :: rest) with
    | some r => some r
    | none => m3Search rest

/-- Method 3 of `parse_response` (lines 208-218): the shorthand
`tool_name: {args}`; the args span must parse as strict JSON. -/
def method3 (l : Str) : Option JVal :=
  match m3Search l with
  | none => none
  | some (name, argsStr) =>
    match jsonParse argsStr with
    | some args => some (.jobj [(lc "tool", .jstr name), (lc "args", args)])
    | none => none

/-- `AgentOrchestrator.parse_response`: preprocess, then methods 1-3 in
order, the first success setting the pending tool call. -/
def parse_response (text : Str) : Option JVal :=
  let t := _preprocess_response text
  match method1 t with
  | some v => some v
  | none =>
    match method2 t with
    | some v => some v
    | none => method3 t

/-- C4 counterexample: this text contains the syntactically valid JSON
object `{"tool": "read_file", "args": {"file_path": "a"}}` (with `tool`
first and prose-free), yet `parse_response` extracts nothing: the brace
scan starts at the *first* `{"tool":`-like opening, whose balanced span
`{"tool": broken}` fails both strict JSON and the literal fallback, and the
method never rescans from a later opening. -/
theorem parse_response_misses_valid_object :
    parse_response
      (lc "\x7b\"tool\": broken\x7d \x7b\"tool\": \"read_file\", \"args\": \x7b\"file_path\": \"a\"\x7d\x7d") = none ∧
    lc "\x7b\"tool\": broken\x7d \x7b\"tool\": \"read_file\", \"args\": \x7b\"file_path\": \"a\"\x7d\x7d" =
      lc "\x7b\"tool\": broken\x7d " ++
      lc "\x7b\"tool\": \"read_file\", \"args\": \x7b\"file_path\": \"a\"\x7d\x7d" ∧
    jsonParse (lc "\x7b\"tool\": \"read_file\", \"args\": \x7b\"file_path\": \"a\"\x7d\x7d") =
      some (.jobj [(lc "tool", .jstr (lc "read_file")),
                   (lc "args", .jobj [(lc "file_path", .jstr (lc "a"))])]) := by
  refine ⟨rfl, rfl, rfl⟩

/-- C4 (amended): the Interpreter extracts exactly the tool and args of a
valid `{"tool": ..., "args": {...}}` object when that object is the first
candidate: no fenced code block yields an accepted object, the object
starts at the text's first `{"tool":`-like opening, the string-aware brace
scan recovers exactly its span, and the span parses as strict JSON. -/
theorem parse_response_extracts_first_candidate (text span post : Str)
    (fields : List (Str × JVal))
    (h1 : method1 (_preprocess_response text) = none)
    (h2 : findToolStart (_preprocess_response text) = some (span ++ post))
    (h3 : braceScan (span ++ post) = some span)
    (h4 : jsonParse span = some (.jobj fields)) :
    parse_response text = some (.jobj fields) := by
  simp only [parse_response, method2, h1, h2, h3, h4]

/-- Witness for `parse_response_extracts_first_candidate`: a prose-wrapped
valid object is extracted exactly. -/
theorem parse_response_extracts_first_candidate_witness :
    parse_response
      (lc "Sure. \x7b\"tool\": \"read_file\", \"args\": \x7b\"file_path\": \"a.py\"\x7d\x7d done") =
      some (.jobj [(lc "tool", .jstr (lc "read_file")),
                   (lc "args", .jobj [(lc "file_path", .jstr (lc "a.py"))])]) := by
  exact parse_response_extracts_first_candidate
    (lc "Sure. \x7b\"tool\": \"read_file\", \"args\": \x7b\"file_path\": \"a.py\"\x7d\x7d done")
    (lc "\x7b\"tool\": \"read_file\", \"args\": \x7b\"file_path\": \"a.py\"\x7d\x7d")
    (lc " done")
    [(lc "tool", .jstr (lc "read_file")),
     (lc "args", .jobj [(lc "file_path", .jstr (lc "a.py"))])]
    rfl rfl rfl rfl

/- ------------------------------------------------------------------ -/
/- The retry loop of `AgentOrchestrator.step` (orchestrator.py lines
   220-325).  The Gateway is abstracted as a function from the attempt
   number to its outcome (a reply text or a raised exception); the
   corrective messages the guards append go to the *local* `messages`
   list, which is a fresh `[system] + history` copy each step, so they
   influence only the next Gateway call, not the conversation store. -/

/-- One conversation-store entry. -/
structure Turn where
  role : Str
  content : Str
deriving DecidableEq

/-- Outcome of one Gateway call. -/
inductive LLMOutcome where
  | ok (text : Str)
  | exc (message : Str)

/-- Observable state after one `step()`: the conversation store, `status`,
`last_action`, `pending_tool_call`, and the returned text. -/
structure StepOut where
  memory : List Turn
  status : Str
  last_action : Str
  pending : Option JVal
  response : Option Str

/-- `"timed out" in response_text.lower() or "timeout" in ...` (line 255). -/
def timeoutDetected (text : Str) : Bool :=
  containsSub (lc "timed out") (pyLower text) || containsSub (lc "timeout") (pyLower text)

/-- Distinct entries of a list (the size of Python's `set(lines)`). -/
def nubList : List Str → List Str
  | [] => []
  | x :: xs => if (nubList xs).contains x then nubList xs else x :: nubList xs

/-- The repetition guard (lines 259-270): more than 30 non-blank lines of
which fewer than 20% are unique. -/
def repetitionDetected (text : Str) : Bool :=
  let lines := ((splitNl text).map pyStrip).filter (fun l => l ≠ [])
  30 < lines.length && (nubList lines).length * 5 < lines.length

/-- `\w` word characters. -/
def isWordChar (c : Char) : Bool :=
  c.isAlpha || c.isDigit || c == '_'

/-- The simulation-guard regex ` ```(?!json|plan)\w*\n.*?\n``` ` matched at
the current position. -/
def codeBlockFrom (l : Str) : Bool :=
  hasPre (lc "```") l &&
    (let r := l.drop 3
     !(hasPre (lc "json") r) && !(hasPre (lc "plan") r) &&
       (match r.drop (r.takeWhile isWordChar).length with
        | '\n' :: body => containsSub (lc "\n```") body
        | _ => false))

/-- `re.search` existence for the simulation-guard regex. -/
def codeBlockSearch : Str → Bool
  | [] => false
  | c :: rest => codeBlockFrom (c :: rest) || codeBlockSearch rest

/-- The simulation guard (lines 276-286): a fenced block present, no
invocation parsed, and a non-json/plan code block found. -/
def simulationFires (text : Str) : Bool :=
  containsSub (lc "```") text && codeBlockSearch text

/-- The mention-without-call guard (lines 289-302): a registered tool name
appears quoted or as `Command: name`. -/
def mentionFires (text : Str) : Bool :=
  toolRegistry.any (fun t =>
    containsSub ('"' :: (t ++ ['"'])) text ||
    containsSub ('\'' :: (t ++ ['\''])) text ||
    containsSub (lc "Command: " ++ t) text)

/-- The retry loop of `step` in the `thinking` state: `attempt` is the
current index, the last argument the remaining attempts
(`max_retries = 3`); exhaustion returns to `idle` with
`last_action = "Error (recoverable)"` and the conversation store untouched
(lines 319-325). -/
def stepAttempts (llm : Nat → LLMOutcome) (mem : List Turn) :
    Nat → Nat → StepOut
  | _, 0 => ⟨mem, lc "idle", lc "Error (recoverable)", none, none⟩
  | attempt, remaining + 1 =>
    match llm attempt with
    | .exc _ => stepAttempts llm mem (attempt + 1) remaining
    | .ok text =>
      if timeoutDetected text then stepAttempts llm mem (attempt + 1) remaining
      else if repetitionDetected text then stepAttempts llm mem (attempt + 1) remaining
      else
        if (parse_response text).isNone && simulationFires text then
          stepAttempts llm mem (attempt + 1) remaining
        else if (parse_response text).isNone && mentionFires text then
          stepAttempts llm mem (attempt + 1) remaining
        else
          ⟨mem ++ [⟨lc "assistant", text⟩],
           if (parse_response text).isSome then lc "waiting_approval" else lc "idle",
           lc "Generated response", parse_response text, some text⟩

/-- `step()` from the `thinking` state. -/
def step_thinking (llm : Nat → LLMOutcome) (mem : List Turn) : StepOut :=
  stepAttempts llm mem 0 3

/-- An attempt that aborts: a raised exception, detected-timeout text, or
a firing guard. -/
def attemptFailing (o : LLMOutcome) : Bool :=
  match o with
  | .exc _ => true
  | .ok text =>
    timeoutDetected text || repetitionDetected text ||
    ((parse_response text).isNone && simulationFires text) ||
    ((parse_response text).isNone && mentionFires text)

/-- A failing attempt just moves the loop to the next attempt. -/
theorem stepAttempts_fail_step (llm : Nat → LLMOutcome) (mem : List Turn)
    (attempt remaining : Nat) (hfail : attemptFailing (llm attempt) = true) :
    stepAttempts llm mem attempt (remaining + 1) =
      stepAttempts llm mem (attempt + 1) remaining := by
  cases ho : llm attempt with
  | exc m => simp only [stepAttempts, ho]
  | ok text =>
    rw [attemptFailing.eq_def, ho] at hfail
    simp only [stepAttempts, ho]
    by_cases ht : timeoutDetected text = true
    · rw [if_pos ht]
    · rw [if_neg ht]
      by_cases hr : repetitionDetected text = true
      · rw [if_pos hr]
      · rw [if_neg hr]
        by_cases hs : ((parse_response text).isNone && simulationFires text) = true
        · rw [if_pos hs]
        · rw [if_neg hs]
          by_cases hm : ((parse_response text).isNone && mentionFires text) = true
          · rw [if_pos hm]
          · exfalso
            rw [Bool.not_eq_true] at ht hr hs hm
            simp [ht, hr, hs, hm] at hfail

/-- C6 counterexample: when all three Gateway attempts raise, the loop
returns to `idle` and sets `last_action = "Error (recoverable)"`, but *no*
Turn of any kind is appended to the conversation store — the error is only
printed to the console; the recoverable-error Turn the claim promises does
not exist. -/
theorem step_exhaustion_appends_no_turn :
    step_thinking (fun _ => .exc (lc "connection refused"))
        [⟨lc "user", lc "fix the bug"⟩] =
      ⟨[⟨lc "user", lc "fix the bug"⟩], lc "idle", lc "Error (recoverable)",
       none, none⟩ ∧
    (step_thinking (fun _ => .exc (lc "connection refused"))
        [⟨lc "user", lc "fix the bug"⟩]).memory.length = 1 := by
  exact ⟨rfl, rfl⟩

/-- C6 (amended): whenever all three bounded Gateway attempts of one
thinking step fail (exception, detected-timeout text, or a firing guard on
every attempt), the loop's status becomes `idle`, `last_action` records a
recoverable error, and the conversation store is left unchanged — no Turn
is appended. -/
theorem step_retries_exhausted_idle (llm : Nat → LLMOutcome) (mem : List Turn)
    (h : ∀ i, i < 3 → attemptFailing (llm i) = true) :
    step_thinking llm mem = ⟨mem, lc "idle", lc "Error (recoverable)", none, none⟩ := by
  rw [step_thinking,
    stepAttempts_fail_step llm mem 0 2 (h 0 (by omega)),
    stepAttempts_fail_step llm mem 1 1 (h 1 (by omega)),
    stepAttempts_fail_step llm mem 2 0 (h 2 (by omega)),
    stepAttempts]

/-- Witness for `step_retries_exhausted_idle`: one timeout reply, one
exception, one repetitive breakdown of 31 identical lines. -/
theorem step_retries_exhausted_idle_witness :
    step_thinking
      (fun i => if i = 0 then .ok (lc "the request timed out")
                else if i = 1 then .exc (lc "connection refused")
                else .ok (lc "ok\nok\nok\nok\nok\nok\nok\nok\nok\nok\nok\nok\nok\nok\nok\nok\nok\nok\nok\nok\nok\nok\nok\nok\nok\nok\nok\nok\nok\nok\nok"))
      [] =
      ⟨[], lc "idle", lc "Error (recoverable)", none, none⟩ := by
  exact step_retries_exhausted_idle _ [] (by decide)

/- ------------------------------------------------------------------ -/
/- C8: triple-quoted values survive preprocessing and extraction. -/

/-- The fuel argument of `replaceAllF` is irrelevant once it covers the
string length. -/
theorem replaceAllF_irrel (pat rep : Str) :
    ∀ f1 f2 l, l.length ≤ f1 → l.length ≤ f2 →
      replaceAllF pat rep f1 l = replaceAllF pat rep f2 l := by
  intro f1
  induction f1 with
  | zero =>
    intro f2 l h1 _
    have : l = [] := List.length_eq_zero.mp (Nat.le_zero.mp h1)
    subst this
    cases f2 <;> rfl
  | succ f ih =>
    intro f2 l h1 h2
    cases l with
    | nil => cases f2 <;> rfl
    | cons c cs =>
      cases f2 with
      | zero => simp at h2
      | succ g =>
        simp only [replaceAllF]
        have hcs : cs.length ≤ f := by simpa using h1
        have hcs2 : cs.length ≤ g := by simpa using h2
        have hdrop : (List.drop (pat.length - 1) cs).length ≤ cs.length := by
          simp only [List.length_drop]
          omega
        by_cases hp : hasPre pat (c :: cs) = true
        · rw [if_pos hp, if_pos hp, ih g _ (le_trans hdrop hcs) (le_trans hdrop hcs2)]
        · rw [if_neg hp, if_neg hp, ih g _ hcs hcs2]

/-- Unfolding equation of `replaceAll` on a cons cell. -/
theorem replaceAll_cons (pat rep : Str) (c : Char) (cs : Str) :
    replaceAll pat rep (c :: cs) =
      if hasPre pat (c :: cs) then rep ++ replaceAll pat rep (List.drop (pat.length - 1) cs)
      else c :: replaceAll pat rep cs := by
  have hdrop : (List.drop (pat.length - 1) cs).length ≤ cs.length := by
    simp only [List.length_drop]
    omega
  simp only [replaceAll, List.length_cons, replaceAllF]
  by_cases hp : hasPre pat (c :: cs) = true
  · rw [if_pos hp, if_pos hp,
      replaceAllF_irrel pat rep cs.length (List.drop (pat.length - 1) cs).length _ hdrop le_rfl]
  · rw [if_neg hp, if_neg hp,
      replaceAllF_irrel pat rep cs.length cs.length _ le_rfl le_rfl]

/-- Character-wise expansion (the form the escaping lemmas use). -/
def cmap (f : Char → Str) : Str → Str
  | [] => []
  | c :: cs => f c ++ cmap f cs

/-- A single-character replace is a character-wise expansion. -/
theorem replaceAll_single (a : Char) (rep : Str) (l : Str) :
    replaceAll [a] rep l = cmap (fun c => if c = a then rep else [c]) l := by
  induction l with
  | nil => rfl
  | cons c cs ih =>
    rw [replaceAll_cons]
    have hpre : hasPre [a] (c :: cs) = (a == c) := by
      simp [hasPre]
    by_cases hca : c = a
    · subst hca
      simp only [hpre, beq_self_eq_true, if_pos rfl, List.length_cons, List.length_nil,
        Nat.sub_self, List.drop_zero, cmap, ih, if_pos rfl]
      simp
    · have : (a == c) = false := by
        simp [beq_eq_false_iff_ne]
        intro h
        exact hca h.symm
      rw [hpre, this]
      simp only [Bool.false_eq_true, if_false, cmap, ih, if_neg hca]
      rfl

/-- `cmap` distributes over append. -/
theorem cmap_append (f : Char → Str) (l1 l2 : Str) :
    cmap f (l1 ++ l2) = cmap f l1 ++ cmap f l2 := by
  induction l1 with
  | nil => rfl
  | cons c cs ih => simp [cmap, ih]

/-- Two character-wise expansions fuse. -/
theorem cmap_cmap (f g : Char → Str) (l : Str) :
    cmap g (cmap f l) = cmap (fun c => cmap g (f c)) l := by
  induction l with
  | nil => rfl
  | cons c cs ih => simp [cmap, cmap_append, ih]

/-- The escaping of one character by `_preprocess_response`: backslash,
quote, newline, carriage return, tab; all other characters pass through. -/
def escChar (c : Char) : Str :=
  if c = '\\' then lc "\\\\"
  else if c = '"' then lc "\\\""
  else if c = '\n' then lc "\\n"
  else if c = '\r' then lc "\\r"
  else if c = '\t' then lc "\\t"
  else [c]

/-- The five sequential `str.replace` calls of the triple-quote
re-escaping act character-wise: no later stage rewrites the characters an
earlier stage produced. -/
theorem escJson_eq_cmap (l : Str) : escJson l = cmap escChar l := by
  rw [escJson]
  rw [show (lc "\\" : Str) = ['\\'] from rfl, show (lc "\"" : Str) = ['"'] from rfl,
    show (lc "\n" : Str) = ['\n'] from rfl, show (lc "\r" : Str) = ['\r'] from rfl,
    show (lc "\t" : Str) = ['\t'] from rfl]
  rw [replaceAll_single, replaceAll_single, replaceAll_single, replaceAll_single,
    replaceAll_single]
  rw [cmap_cmap, cmap_cmap, cmap_cmap, cmap_cmap]
  apply congrFun
  apply congrArg
  funext c
  by_cases h1 : c = '\\'
  · subst h1; rfl
  · by_cases h2 : c = '"'
    · subst h2; rfl
    · by_cases h3 : c = '\n'
      · subst h3; rfl
      · by_cases h4 : c = '\r'
        · subst h4; rfl
        · by_cases h5 : c = '\t'
          · subst h5; rfl
          · simp [cmap, escChar, if_neg h1, if_neg h2, if_neg h3, if_neg h4, if_neg h5]

/-- Re-escaping introduces no backtick. -/
theorem cmap_escChar_no_backtick (C : Str) (h : ∀ c ∈ C, c ≠ '`') :
    ∀ x ∈ cmap escChar C, x ≠ '`' := by
  induction C with
  | nil => intro x hx; simp [cmap] at hx
  | cons c cs ih =>
    intro x hx
    rw [cmap, List.mem_append] at hx
    cases hx with
    | inl hin =>
      have hc := h c (List.mem_cons_self c cs)
      rw [escChar] at hin
      by_cases e1 : c = '\\'
      · rw [if_pos e1] at hin
        simp only [show (lc "\\\\" : Str) = ['\\', '\\'] from rfl] at hin
        simp at hin
        subst hin
        decide
      · rw [if_neg e1] at hin
        by_cases e2 : c = '"'
        · rw [if_pos e2] at hin
          simp only [show (lc "\\\"" : Str) = ['\\', '"'] from rfl] at hin
          simp at hin
          rcases hin with h1 | h1 <;> (subst h1; decide)
        · rw [if_neg e2] at hin
          by_cases e3 : c = '\n'
          · rw [if_pos e3] at hin
            simp only [show (lc "\\n" : Str) = ['\\', 'n'] from rfl] at hin
            simp at hin
            rcases hin with h1 | h1 <;> (subst h1; decide)
          · rw [if_neg e3] at hin
            by_cases e4 : c = '\r'
            · rw [if_pos e4] at hin
              simp only [show (lc "\\r" : Str) = ['\\', 'r'] from rfl] at hin
              simp at hin
              rcases hin with h1 | h1 <;> (subst h1; decide)
            · rw [if_neg e4] at hin
              by_cases e5 : c = '\t'
              · rw [if_pos e5] at hin
                simp only [show (lc "\\t" : Str) = ['\\', 't'] from rfl] at hin
                simp at hin
                rcases hin with h1 | h1 <;> (subst h1; decide)
              · rw [if_neg e5] at hin
                rw [List.mem_singleton] at hin
                subst hin
                exact hc
    | inr hin => exact ih (fun y hy => h y (List.mem_cons_of_mem _ hy)) x hin

/-- Without a backtick in the text, the fence regex cannot match. -/
theorem fenceSearch_none (l : Str) (h : ∀ c ∈ l, c ≠ '`') :
    fenceSearch l = none := by
  induction l with
  | nil => rfl
  | cons c rest ih =>
    have hc := h c (List.mem_cons_self c rest)
    have hpre : hasPre (lc "```") (c :: rest) = false := by
      rw [show (lc "```" : Str) = '`' :: '`' :: '`' :: [] from rfl, hasPre]
      have : ('`' == c) = false := by
        rw [beq_eq_false_iff_ne]
        exact fun hh => hc hh.symm
      simp [this]
    rw [fenceSearch, fenceFrom, if_neg (by simp [hpre])]
    exact ih (fun y hy => h y (List.mem_cons_of_mem _ hy))

/-- The preprocessed text before the re-escaped value. -/
def tqPreOut : Str := lc "\x7b\"tool\": \"write_file\", \"args\": \x7b\"content\": \""

/-- The preprocessed text after the re-escaped value. -/
def tqSufOut : Str := lc "\"\x7d\x7d"

def tqMid (C : Str) : Str := escJson C ++ tqSufOut

/-- No character of the preprocessed canonical call is a backtick. -/
theorem tq_no_backtick (C : Str) (h3 : ∀ c ∈ C, c ≠ '`') :
    ∀ x ∈ tqPreOut ++ tqMid C, x ≠ '`' := by
  have hpre : ∀ x ∈ (tqPreOut : Str), x ≠ '`' := by decide
  have hsuf : ∀ x ∈ (tqSufOut : Str), x ≠ '`' := by decide
  intro x hx
  rw [List.mem_append] at hx
  cases hx with
  | inl h => exact hpre x h
  | inr h =>
    rw [tqMid, List.mem_append] at h
    cases h with
    | inl h =>
      rw [escJson_eq_cmap] at h
      exact cmap_escChar_no_backtick C h3 x h
    | inr h => exact hsuf x h

